import Mathlib

/-!
# Verification of the task move/reorder protocol of the Kanban board client

This file is a shallow embedding of the drag-and-drop move logic of
`src/apps/web/app/board/[boardId]/page.tsx` and of the member-search filter of
the board-members modal, together with proofs of the behavioural properties
stated in the specification.

Modelling conventions:
* Client-side board state is passed explicitly: each handler takes the board it
  reads and returns the board it leaves behind, paired with the list of
  outward-facing effects it performs (persistence request, error toast, board
  re-fetch).  The TypeScript handlers mutate a store; the explicit state
  passing is the standard embedding of that.
* `moveTask` (the REST persistence call) is represented by the
  `Effect.persist` value carrying exactly the payload the code sends
  `{task_id, list_id, position}`; its success or failure is an input
  (`moveOk`).  `fetchBoard` is represented by `Effect.refetch` together with a
  `server` board parameter: a completed re-fetch replaces the local board by
  the server's board.
* JavaScript `Array.prototype.findIndex` returns `-1` when nothing matches;
  it is embedded as `findTaskIdx : … → Option Nat` plus `idxOrNeg` which maps
  the `none` case back to `-1 : Int` where the code compares raw numbers.
* Tasks carry further fields (title, …) in the application; only `id` is ever
  consulted by the move logic, so the embedded `Task` keeps just the id.
-/

namespace Kanban

/-- A task reference as consulted by the move logic: only its id is read. -/
structure Task where
  id : String
deriving DecidableEq, Repr

/-- A board list (column): stable id plus the ordered sequence of its tasks. -/
structure BList where
  id : String
  tasks : List Task
deriving DecidableEq, Repr

/-- A board: the ordered collection of its lists. -/
structure Board where
  lists : List BList
deriving DecidableEq, Repr

/-- Result of `resolveDropTarget`: a destination list and an insertion index. -/
structure DropTarget where
  listId : String
  index : Nat
deriving DecidableEq, Repr

/-- The drag origin captured by `handleDragStart` in `dragOriginRef`
(`{ listId, position }`, position coming from `findIndex`). -/
structure Origin where
  listId : String
  position : Int
deriving DecidableEq, Repr

/-- Outward-facing effects of the drag-end handler: the `moveTask` persistence
request with its payload, the error toast, and the `fetchBoard` re-fetch. -/
inductive Effect where
  | persist (taskId listId : String) (position : Int)
  | toastError (message : String)
  | refetch
deriving DecidableEq, Repr

/-- Embedding of `tasks.findIndex((t) => t.id === taskId)`, with `none` in
place of `-1`. -/
def findTaskIdx : List Task → String → Option Nat
  | [], _ => none
  | t :: ts, taskId => if t.id == taskId then some 0 else (findTaskIdx ts taskId).map (· + 1)

/-- The `findIndex` result as the raw number the code compares: `-1` when absent. -/
def idxOrNeg (ts : List Task) (taskId : String) : Int :=
  match findTaskIdx ts taskId with
  | some i => (i : Int)
  | none => -1

/-- Insertion at an index, clamped to the end of the list like
`Array.prototype.splice(index, 0, x)` with an out-of-range index. -/
def insertAt : List Task → Nat → Task → List Task
  | ts, 0, x => x :: ts
  | [], _ + 1, x => [x]
  | t :: ts, n + 1, x => t :: insertAt ts n x

/-- Embedding of `findListContainingTask` (page.tsx lines 60-66): the first list whose
tasks contain the given task id. -/
def findListContainingTask (b : Board) (taskId : String) : Option BList :=
  b.lists.find? (fun l => l.tasks.any (fun t => t.id == taskId))

/-- The task-search loop of `resolveDropTarget` (page.tsx lines 76-79): the
first list containing the hovered id, with the task's index there. -/
def findTaskTarget : List BList → String → Option DropTarget
  | [], _ => none
  | l :: ls, overId =>
    match findTaskIdx l.tasks overId with
    | some idx => some ⟨l.id, idx⟩
    | none => findTaskTarget ls overId

/-- Embedding of `resolveDropTarget` (page.tsx lines 69-83): a known list id resolves to
that list with an append-at-end index, otherwise a known task id resolves to
its containing list and current index, otherwise `none`. -/
def resolveDropTarget (b : Board) (overId : String) : Option DropTarget :=
  match b.lists.find? (fun l => l.id == overId) with
  | some list => some ⟨list.id, list.tasks.length⟩
  | none => findTaskTarget b.lists overId

/-- Modelled from the spec: the board store's `optimisticMoveTask` action
(referenced at page.tsx lines 119 and 153; the store itself is not among the
source files).  Spec 4.1/4.2: remove the moved task from its source list and
insert it at the target index within the (possibly different) destination
list, purely locally.  When the task is not found in the source list the
action is a no-op.  `moveOne` is the per-list step: the source list drops the
task, the destination list receives it at the target index. -/
def moveOne (taskId fromListId toListId : String) (index : Nat) (task : Task) (l : BList) :
    BList :=
  let ts := if l.id == fromListId then l.tasks.filter (fun t => !(t.id == taskId)) else l.tasks
  if l.id == toListId then { l with tasks := insertAt ts index task } else { l with tasks := ts }

/-- Modelled from the spec: see `moveOne` above. -/
def optimisticMoveTask (b : Board) (taskId fromListId toListId : String) (index : Nat) : Board :=
  match (b.lists.find? (fun l => l.id == fromListId)).bind
      (fun l => l.tasks.find? (fun t => t.id == taskId)) with
  | none => b
  | some task => { b with lists := b.lists.map (moveOne taskId fromListId toListId index task) }

/-- Embedding of `handleDragOver` (page.tsx lines 104-122): purely local; applies the
optimistic move only for cross-list hovers.  The effect list records outward
effects — the handler performs none, matching its body. -/
def handleDragOver (b : Board) (activeId : String) (over : Option String) : Board × List Effect :=
  match over with
  | none => (b, [])
  | some overId =>
    match findListContainingTask b activeId, resolveDropTarget b overId with
    | some activeList, some target =>
      if activeList.id == target.listId then (b, [])
      else (optimisticMoveTask b activeId activeList.id target.listId target.index, [])
    | _, _ => (b, [])

/-- The local state `handleDragEnd` leaves after its own same-list optimistic
reorder (page.tsx lines 144-155): when the drop stays in the current list and
the current index differs from the target index, `optimisticMoveTask` is
applied; otherwise the board is untouched. -/
def dragEndBoardOf (b : Board) (taskId overId : String) : Board :=
  match findListContainingTask b taskId, resolveDropTarget b overId with
  | some currentList, some target =>
    if currentList.id == target.listId && idxOrNeg currentList.tasks taskId != (target.index : Int) then
      optimisticMoveTask b taskId currentList.id target.listId target.index
    else b
  | _, _ => b

/-- The tail of `handleDragEnd` (page.tsx lines 157-170): read the task's
final list and position from local state, skip the request when the origin is
unchanged, otherwise issue the single `moveTask` request; on failure toast the
error and re-fetch the board (the completed re-fetch installs the server's
board). -/
def dragEndFinish (b1 : Board) (origin : Origin) (taskId : String) (moveOk : Bool)
    (server : Board) : Board × List Effect :=
  match findListContainingTask b1 taskId with
  | none => (b1, [])
  | some finalList =>
    let finalPosition := idxOrNeg finalList.tasks taskId
    if origin.listId == finalList.id && origin.position == finalPosition then (b1, [])
    else if moveOk then (b1, [Effect.persist taskId finalList.id finalPosition])
    else (server,
      [Effect.persist taskId finalList.id finalPosition,
       Effect.toastError "Failed to move task", Effect.refetch])

/-- Embedding of `handleDragEnd` (page.tsx lines 125-173).  Early returns when there is no
`over` id, no recorded origin, no list containing the task, or no resolvable
drop target leave the board as it is with no effect.  The early return at
lines 147-150 (same index and unchanged origin) is subsumed by the origin
comparison of `dragEndFinish`, which yields the same no-op result there. -/
def handleDragEnd (b : Board) (origin : Option Origin) (activeId : String)
    (over : Option String) (moveOk : Bool) (server : Board) : Board × List Effect :=
  match over, origin with
  | some overId, some org =>
    match findListContainingTask b activeId, resolveDropTarget b overId with
    | some _, some _ => dragEndFinish (dragEndBoardOf b activeId overId) org activeId moveOk server
    | _, _ => (b, [])
  | _, _ => (b, [])

/-- A move command as carried by the persistence request and the broadcast
event, plus the source list the client-side applier receives. -/
structure MoveCmd where
  taskId : String
  fromListId : String
  toListId : String
  index : Nat
deriving DecidableEq, Repr

/-- Applying a sequence of optimistic moves in order. -/
def applyMoves (b : Board) : List MoveCmd → Board
  | [] => b
  | m :: ms => applyMoves (optimisticMoveTask b m.taskId m.fromListId m.toListId m.index) ms

/-- The ids of the board's lists. -/
def listIds (b : Board) : List String := b.lists.map (·.id)

/-- The ids of a list's tasks, in visible order. -/
def taskIds (l : BList) : List String := l.tasks.map (·.id)

/-- All task ids on the board, grouped by list in visible order. -/
def boardTaskIds (b : Board) : List String := b.lists.flatMap taskIds

/-- Board well-formedness: list ids are distinct and every task id occurs in
exactly one place on the whole board. -/
def BoardWF (b : Board) : Prop := (listIds b).Nodup ∧ (boardTaskIds b).Nodup

instance (b : Board) : Decidable (BoardWF b) := by
  unfold BoardWF; infer_instance

/-- A user row of the member-search response; only the id is consulted by the
filter (src/unnamed/part_000). -/
structure UserSearchResult where
  id : String
deriving DecidableEq, Repr

/-- A board member entry as consulted by the filter. -/
structure BoardMember where
  user_id : String
deriving DecidableEq, Repr

/-- The board fields the members-modal filter reads. -/
structure BoardDetail where
  owner_id : String
  members : List BoardMember
deriving DecidableEq, Repr

/-- The search-result filter of `BoardMembersModal` (src/unnamed/part_000):
drop every user whose id is the owner's or an existing member's. -/
def filterSearchResults (board : BoardDetail) (users : List UserSearchResult) :
    List UserSearchResult :=
  let existingIds := board.owner_id :: board.members.map (·.user_id)
  users.filter (fun u => !(existingIds.contains u.id))

/-- The results state after the debounced search settles: the filtered users
on success, the empty list when the request fails (the `catch` branch). -/
def searchResultsAfter (board : BoardDetail) (response : Option (List UserSearchResult)) :
    List UserSearchResult :=
  match response with
  | some users => filterSearchResults board users
  | none => []

/-- A small concrete board used to instantiate the general theorems: list `A`
holds tasks `t1, t2, t3`, list `B` is empty. -/
def demoBoard : Board := ⟨[⟨"A", [⟨"t1"⟩, ⟨"t2"⟩, ⟨"t3"⟩]⟩, ⟨"B", []⟩]⟩

/-- A concrete sequence of optimistic moves on `demoBoard`. -/
def demoMoves : List MoveCmd := [⟨"t2", "A", "B", 0⟩, ⟨"t1", "A", "B", 1⟩, ⟨"t3", "A", "A", 0⟩]

/-- A concrete board on which a cross-list drag-over is followed by a drop
whose hovered id resolves to nothing. -/
def strandBoard : Board := ⟨[⟨"A", [⟨"t1"⟩]⟩, ⟨"B", [⟨"t2"⟩]⟩]⟩

/-! ## Helper lemmas about `insertAt` and `findTaskIdx` -/

theorem insertAt_zero (ts : List Task) (x : Task) : insertAt ts 0 x = x :: ts := by
  cases ts <;> rfl

theorem insertAt_perm (ts : List Task) (n : Nat) (x : Task) :
    (insertAt ts n x).Perm (x :: ts) := by
  induction ts generalizing n with
  | nil => cases n <;> simp [insertAt]
  | cons t ts ih =>
    cases n with
    | zero => simp [insertAt]
    | succ n => exact ((ih n).cons t).trans (List.Perm.swap x t ts)

theorem filter_insertAt (p : Task → Bool) (ts : List Task) (n : Nat) (x : Task)
    (hx : p x = false) : (insertAt ts n x).filter p = ts.filter p := by
  induction ts generalizing n with
  | nil => cases n <;> simp [insertAt, hx]
  | cons t ts ih =>
    cases n with
    | zero => simp [insertAt, hx, List.filter_cons]
    | succ n => simp only [insertAt, List.filter_cons, ih]

theorem find?_insertAt (p : Task → Bool) (ts : List Task) (n : Nat) (x : Task)
    (hts : ∀ t ∈ ts, p t = false) (hx : p x = true) :
    (insertAt ts n x).find? p = some x := by
  induction ts generalizing n with
  | nil => cases n <;> simp [insertAt, List.find?, hx]
  | cons t ts ih =>
    have ht : p t = false := hts t (by simp)
    cases n with
    | zero => simp [insertAt, List.find?, hx]
    | succ n =>
      show List.find? p (t :: insertAt ts n x) = some x
      rw [List.find?_cons_of_neg _ (by simp [ht])]
      exact ih n (fun u hu => hts u (List.mem_cons_of_mem t hu))

theorem findTaskIdx_eq_none {ts : List Task} {tid : String} :
    findTaskIdx ts tid = none ↔ ∀ t ∈ ts, t.id ≠ tid := by
  induction ts with
  | nil => simp [findTaskIdx]
  | cons t ts ih =>
    by_cases h : t.id = tid
    · simp [findTaskIdx, h]
    · simp [findTaskIdx, h, ih]

theorem findTaskIdx_of_uniq {ts : List Task} {tid : String} {i : Nat}
    (hi : i < ts.length) (hid : ts[i].id = tid)
    (huniq : ∀ j (hj : j < ts.length), ts[j].id = tid → j = i) :
    findTaskIdx ts tid = some i := by
  induction ts generalizing i with
  | nil => exact absurd hi (by simp)
  | cons a ts ih =>
    by_cases ha : a.id = tid
    · have h0 : 0 = i := huniq 0 (by simp) (by simpa using ha)
      subst h0
      simp [findTaskIdx, ha]
    · cases i with
      | zero => exact absurd (by simpa using hid) ha
      | succ i =>
        have hi' : i < ts.length := by simpa using hi
        have hid' : ts[i].id = tid := by simpa using hid
        have huniq' : ∀ j (hj : j < ts.length), ts[j].id = tid → j = i := by
          intro j hj hjid
          have := huniq (j + 1) (by simpa using hj) (by simpa using hjid)
          omega
        simp [findTaskIdx, ha, ih hi' hid' huniq']

theorem findTaskIdx_of_nodup {ts : List Task} (hnd : (ts.map (·.id)).Nodup)
    (i : Nat) (hi : i < ts.length) : findTaskIdx ts ts[i].id = some i := by
  refine findTaskIdx_of_uniq hi rfl ?_
  intro j hj hjid
  have hlenj : j < (ts.map (·.id)).length := by simpa using hj
  have hleni : i < (ts.map (·.id)).length := by simpa using hi
  have hmap : (ts.map (·.id))[j] = (ts.map (·.id))[i] := by
    rw [List.getElem_map, List.getElem_map]
    exact hjid
  exact (List.Nodup.getElem_inj_iff hnd).mp hmap

/-! ## Helper lemmas about `moveOne` and `optimisticMoveTask` -/

theorem moveOne_id (taskId fromListId toListId : String) (index : Nat) (task : Task)
    (l : BList) : (moveOne taskId fromListId toListId index task l).id = l.id := by
  unfold moveOne
  dsimp only
  split <;> rfl

theorem find?_map_moveOne (ls : List BList) (taskId fromListId toListId s : String)
    (index : Nat) (task : Task) :
    (ls.map (moveOne taskId fromListId toListId index task)).find? (fun l => l.id == s)
      = (ls.find? (fun l => l.id == s)).map (moveOne taskId fromListId toListId index task) := by
  rw [List.find?_map]
  have hp : ((fun l : BList => l.id == s) ∘ moveOne taskId fromListId toListId index task)
      = fun l : BList => l.id == s := by
    funext l
    simp [Function.comp, moveOne_id]
  rw [hp]

theorem moveOne_idem_same (taskId fromListId toListId : String) (index : Nat) (task : Task)
    (hft : fromListId = toListId) (htask : task.id = taskId) (l : BList) :
    moveOne taskId fromListId toListId index task
        (moveOne taskId fromListId toListId index task l)
      = moveOne taskId fromListId toListId index task l := by
  subst hft
  unfold moveOne
  by_cases hl : l.id = fromListId
  · simp only [hl, beq_self_eq_true, if_true]
    have hfix : (insertAt (l.tasks.filter (fun t => !(t.id == taskId))) index task).filter
        (fun t => !(t.id == taskId)) = l.tasks.filter (fun t => !(t.id == taskId)) := by
      rw [filter_insertAt _ _ _ _ (by simp [htask]), List.filter_filter]
      simp
    simp [hfix]
  · simp [hl]

/-- C7: the move-application transformation is idempotent — applying the same
move (same task id, source list, destination list and destination position)
twice, whether through repeated drag-over events or through a broadcast event
duplicating a prior optimistic edit, yields the same board as applying it
once. -/
theorem optimisticMoveTask_idem (b : Board) (taskId fromListId toListId : String)
    (index : Nat) :
    optimisticMoveTask (optimisticMoveTask b taskId fromListId toListId index)
        taskId fromListId toListId index
      = optimisticMoveTask b taskId fromListId toListId index := by
  unfold optimisticMoveTask
  cases hL : b.lists.find? (fun l => l.id == fromListId) with
  | none => simp [hL]
  | some L =>
    cases hT : L.tasks.find? (fun t => t.id == taskId) with
    | none => simp [hL, hT]
    | some task =>
      have htid : task.id = taskId := by simpa using List.find?_some hT
      have hfrom : L.id = fromListId := by simpa using List.find?_some hL
      have c1 : (L.id == fromListId) = true := by simp [hfrom]
      simp only [hL, hT, Option.some_bind]
      rw [find?_map_moveOne, hL, Option.map_some', Option.some_bind]
      by_cases hto : L.id = toListId
      · -- the source list is also the destination: the task is found again and
        -- re-applying the per-list step changes nothing
        have hft : fromListId = toListId := hfrom ▸ hto
        have c2 : (L.id == toListId) = true := by simp [hto]
        have hfind : (moveOne taskId fromListId toListId index task L).tasks.find?
            (fun t => t.id == taskId) = some task := by
          simp only [moveOne, c1, c2, if_true]
          refine find?_insertAt _ _ _ _ ?_ (by simp [htid])
          intro t ht
          simpa using (List.mem_filter.mp ht).2
        rw [hfind]
        have hmm : List.map (moveOne taskId fromListId toListId index task)
            (List.map (moveOne taskId fromListId toListId index task) b.lists)
            = List.map (moveOne taskId fromListId toListId index task) b.lists := by
          rw [List.map_map]
          exact List.map_congr_left (fun l _ => moveOne_idem_same _ _ _ _ _ hft htid l)
        exact congrArg Board.mk hmm
      · -- cross-list move: the task is gone from the source list, so the second
        -- application is a no-op
        have c2 : (L.id == toListId) = false := by simpa using hto
        have hfind : (moveOne taskId fromListId toListId index task L).tasks.find?
            (fun t => t.id == taskId) = none := by
          simp only [moveOne, c1, c2, if_true, if_false]
          rw [List.find?_eq_none]
          intro t ht
          simpa using (List.mem_filter.mp ht).2
        rw [hfind]

/-! ## Counting lemmas for the board invariants -/

theorem count_ids_filter_self (ts : List Task) (tid : String) :
    List.count tid ((ts.filter (fun t => !(t.id == tid))).map (·.id)) = 0 := by
  rw [List.count_eq_zero]
  intro hmem
  obtain ⟨t, ht, hteq⟩ := List.mem_map.mp hmem
  have := (List.mem_filter.mp ht).2
  simp [hteq] at this

theorem count_ids_filter_ne (ts : List Task) (tid a : String) (ha : a ≠ tid) :
    List.count a ((ts.filter (fun t => !(t.id == tid))).map (·.id))
      = List.count a (ts.map (·.id)) := by
  induction ts with
  | nil => rfl
  | cons t ts ih =>
    by_cases h : t.id = tid
    · simp [List.filter_cons, h, List.count_cons, ih, Ne.symm ha]
    · simp [List.filter_cons, h, List.count_cons, ih]

theorem count_ids_insertAt (ts : List Task) (n : Nat) (x : Task) (a : String) :
    List.count a ((insertAt ts n x).map (·.id)) = List.count a ((x :: ts).map (·.id)) :=
  ((insertAt_perm ts n x).map (·.id)).count_eq a

theorem sum_map_ite_unique (ls : List BList) (idv : String) (f : BList → Nat)
    (hnd : (ls.map (·.id)).Nodup) (M : BList) (hM : M ∈ ls) (hid : M.id = idv) :
    (ls.map (fun l => if l.id == idv then f l else 0)).sum = f M := by
  induction ls with
  | nil => cases hM
  | cons a ls ih =>
    rw [List.map_cons, List.sum_cons]
    rw [List.map_cons, List.nodup_cons] at hnd
    by_cases ha : a.id = idv
    · have hMa : M = a := by
        rcases List.mem_cons.mp hM with h | h
        · exact h
        · exfalso
          apply hnd.1
          have : M.id ∈ ls.map (·.id) := List.mem_map_of_mem _ h
          rwa [hid, ← ha] at this
      subst hMa
      simp only [ha, beq_self_eq_true, if_true]
      have hz : (ls.map (fun l => if l.id == idv then f l else 0)).sum = 0 := by
        apply List.sum_eq_zero
        intro x hx
        obtain ⟨l, hl, rfl⟩ := List.mem_map.mp hx
        have hne : l.id ≠ idv := by
          intro e
          apply hnd.1
          have : l.id ∈ ls.map (·.id) := List.mem_map_of_mem _ hl
          rwa [e, ← ha] at this
        simp [hne]
      omega
    · have hM' : M ∈ ls := by
        rcases List.mem_cons.mp hM with h | h
        · exact absurd (h ▸ hid) ha
        · exact h
      rw [if_neg (by simp [ha]), Nat.zero_add, ih hnd.2 hM']

theorem sum_map_add (ls : List BList) (f g : BList → Nat) :
    (ls.map (fun l => f l + g l)).sum = (ls.map f).sum + (ls.map g).sum := by
  induction ls with
  | nil => rfl
  | cons a ls ih => simp [ih]; omega

theorem taskIds_sublist {l : BList} {ls : List BList} (hl : l ∈ ls) :
    (taskIds l).Sublist (ls.flatMap taskIds) := by
  induction ls with
  | nil => cases hl
  | cons a ls ih =>
    rw [List.flatMap_cons]
    rcases List.mem_cons.mp hl with h | h
    · exact h ▸ List.sublist_append_left _ _
    · exact (ih h).trans (List.sublist_append_right _ _)

/-- Pointwise count balance for the moved task id: what a list loses as the
source plus what it gains as the destination. -/
theorem count_taskIds_moveOne_self (taskId fromListId toListId : String) (index : Nat)
    (task : Task) (htid : task.id = taskId) (l : BList) :
    List.count taskId (taskIds (moveOne taskId fromListId toListId index task l))
        + (if l.id == fromListId then List.count taskId (taskIds l) else 0)
      = List.count taskId (taskIds l) + (if l.id == toListId then 1 else 0) := by
  by_cases hf : l.id = fromListId <;> by_cases ht2 : l.id = toListId
  · have c1 : (l.id == fromListId) = true := by simp [hf]
    have c2 : (l.id == toListId) = true := by simp [ht2]
    simp only [moveOne, c1, c2, if_true, taskIds]
    rw [count_ids_insertAt, List.map_cons, List.count_cons]
    rw [count_ids_filter_self]
    simp only [htid, beq_self_eq_true, if_true]
    omega
  · have c1 : (l.id == fromListId) = true := by simp [hf]
    have c2 : (l.id == toListId) = false := by simpa using ht2
    simp only [moveOne, c1, c2, Bool.false_eq_true, if_true, if_false, taskIds]
    rw [count_ids_filter_self]
    simp
  · have c1 : (l.id == fromListId) = false := by simpa using hf
    have c2 : (l.id == toListId) = true := by simp [ht2]
    simp only [moveOne, c1, c2, Bool.false_eq_true, if_true, if_false, taskIds]
    rw [count_ids_insertAt, List.map_cons, List.count_cons]
    simp only [htid, beq_self_eq_true, if_true]
  · have c1 : (l.id == fromListId) = false := by simpa using hf
    have c2 : (l.id == toListId) = false := by simpa using ht2
    simp only [moveOne, c1, c2, Bool.false_eq_true, if_false, taskIds]

/-- Counts of every other task id are untouched by the per-list move step. -/
theorem count_taskIds_moveOne_ne (taskId fromListId toListId : String) (index : Nat)
    (task : Task) (htid : task.id = taskId) (a : String) (ha : a ≠ taskId) (l : BList) :
    List.count a (taskIds (moveOne taskId fromListId toListId index task l))
      = List.count a (taskIds l) := by
  by_cases hf : l.id = fromListId <;> by_cases ht2 : l.id = toListId
  · have c1 : (l.id == fromListId) = true := by simp [hf]
    have c2 : (l.id == toListId) = true := by simp [ht2]
    simp only [moveOne, c1, c2, if_true, taskIds]
    rw [count_ids_insertAt, List.map_cons, List.count_cons, count_ids_filter_ne _ _ _ ha]
    simp [htid, Ne.symm ha]
  · have c1 : (l.id == fromListId) = true := by simp [hf]
    have c2 : (l.id == toListId) = false := by simpa using ht2
    simp only [moveOne, c1, c2, Bool.false_eq_true, if_true, if_false, taskIds]
    exact count_ids_filter_ne _ _ _ ha
  · have c1 : (l.id == fromListId) = false := by simpa using hf
    have c2 : (l.id == toListId) = true := by simp [ht2]
    simp only [moveOne, c1, c2, Bool.false_eq_true, if_true, if_false, taskIds]
    rw [count_ids_insertAt, List.map_cons, List.count_cons]
    simp [htid, Ne.symm ha]
  · have c1 : (l.id == fromListId) = false := by simpa using hf
    have c2 : (l.id == toListId) = false := by simpa using ht2
    simp only [moveOne, c1, c2, Bool.false_eq_true, if_false, taskIds]

/-! ## `optimisticMoveTask` preserves the board invariants -/

theorem move_listIds (b : Board) (taskId fromListId toListId : String) (index : Nat) :
    listIds (optimisticMoveTask b taskId fromListId toListId index) = listIds b := by
  unfold optimisticMoveTask
  cases hL : (b.lists.find? (fun l => l.id == fromListId)).bind
      (fun l => l.tasks.find? (fun t => t.id == taskId)) with
  | none => rfl
  | some task =>
    simp only [listIds, List.map_map]
    exact List.map_congr_left (fun l _ => moveOne_id _ _ _ _ _ l)

theorem move_boardTaskIds_perm (b : Board) (taskId fromListId toListId : String)
    (index : Nat) (hwf : BoardWF b) (hto : toListId ∈ listIds b) :
    (boardTaskIds (optimisticMoveTask b taskId fromListId toListId index)).Perm
      (boardTaskIds b) := by
  unfold optimisticMoveTask
  cases hL : b.lists.find? (fun l => l.id == fromListId) with
  | none => simp [hL]
  | some L =>
    cases hT : L.tasks.find? (fun t => t.id == taskId) with
    | none => simp [hL, hT]
    | some task =>
      simp only [hL, hT, Option.some_bind]
      have hLmem : L ∈ b.lists := List.mem_of_find?_eq_some hL
      have hLid : L.id = fromListId := by simpa using List.find?_some hL
      have htmem : task ∈ L.tasks := List.mem_of_find?_eq_some hT
      have htid : task.id = taskId := by simpa using List.find?_some hT
      obtain ⟨M, hMmem, hMid⟩ : ∃ M ∈ b.lists, M.id = toListId := by
        obtain ⟨M, hM, hMid⟩ := List.mem_map.mp hto
        exact ⟨M, hM, hMid⟩
      rw [List.perm_iff_count]
      intro a
      show List.count a ((b.lists.map (moveOne taskId fromListId toListId index task)).flatMap
        taskIds) = List.count a (b.lists.flatMap taskIds)
      rw [List.count_flatMap, List.count_flatMap, List.map_map]
      simp only [Function.comp_def]
      by_cases ha : a = taskId
      · subst ha
        have hsums : (b.lists.map (fun l =>
              List.count a (taskIds (moveOne a fromListId toListId index task l))
                + (if l.id == fromListId then List.count a (taskIds l) else 0))).sum
            = (b.lists.map (fun l =>
              List.count a (taskIds l) + (if l.id == toListId then 1 else 0))).sum := by
          rw [List.map_congr_left (fun l _ =>
            count_taskIds_moveOne_self a fromListId toListId index task htid l)]
        rw [sum_map_add, sum_map_add] at hsums
        have hfromsum : (b.lists.map (fun l =>
            if l.id == fromListId then List.count a (taskIds l) else 0)).sum
            = List.count a (taskIds L) :=
          sum_map_ite_unique b.lists fromListId _ hwf.1 L hLmem hLid
        have htosum : (b.lists.map (fun l => if l.id == toListId then 1 else 0)).sum = 1 := by
          have := sum_map_ite_unique b.lists toListId (fun _ => 1) hwf.1 M hMmem hMid
          simpa using this
        have hcount1 : List.count a (taskIds L) = 1 := by
          have hpos : 0 < List.count a (taskIds L) := by
            rw [List.count_pos_iff]
            exact htid ▸ List.mem_map_of_mem _ htmem
          have hle : List.count a (taskIds L) ≤ List.count a (boardTaskIds b) :=
            (taskIds_sublist hLmem).count_le a
          have hone : List.count a (boardTaskIds b) ≤ 1 :=
            List.nodup_iff_count_le_one.mp hwf.2 a
          omega
        rw [hfromsum, htosum, hcount1] at hsums
        omega
      · -- other ids are untouched by the move
        apply congrArg
        exact List.map_congr_left (fun l _ =>
          count_taskIds_moveOne_ne taskId fromListId toListId index task htid a ha l)

theorem move_wf (b : Board) (taskId fromListId toListId : String) (index : Nat)
    (hwf : BoardWF b) (hto : toListId ∈ listIds b) :
    BoardWF (optimisticMoveTask b taskId fromListId toListId index) := by
  refine ⟨?_, ?_⟩
  · rw [move_listIds]
    exact hwf.1
  · exact ((move_boardTaskIds_perm b taskId fromListId toListId index hwf hto).nodup_iff).mpr
      hwf.2

theorem applyMoves_wf_perm (ms : List MoveCmd) (b : Board) (hwf : BoardWF b)
    (hms : ∀ m ∈ ms, m.toListId ∈ listIds b) :
    BoardWF (applyMoves b ms)
      ∧ (boardTaskIds (applyMoves b ms)).Perm (boardTaskIds b)
      ∧ listIds (applyMoves b ms) = listIds b := by
  induction ms generalizing b with
  | nil => exact ⟨hwf, List.Perm.refl _, rfl⟩
  | cons m ms ih =>
    have hto : m.toListId ∈ listIds b := hms m (by simp)
    have hwf1 := move_wf b m.taskId m.fromListId m.toListId m.index hwf hto
    have hperm1 := move_boardTaskIds_perm b m.taskId m.fromListId m.toListId m.index hwf hto
    have hids1 := move_listIds b m.taskId m.fromListId m.toListId m.index
    have hms1 : ∀ m' ∈ ms, m'.toListId ∈
        listIds (optimisticMoveTask b m.taskId m.fromListId m.toListId m.index) := by
      intro m' hm'
      rw [hids1]
      exact hms m' (List.mem_cons_of_mem m hm')
    obtain ⟨hwf2, hperm2, hids2⟩ := ih _ hwf1 hms1
    exact ⟨hwf2, hperm2.trans hperm1, hids2.trans hids1⟩

/-! ## Helper lemmas for the drop-target resolver -/

theorem find?_listId_eq_none {ls : List BList} {overId : String}
    (h : ∀ L ∈ ls, L.id ≠ overId) : ls.find? (fun l => l.id == overId) = none := by
  rw [List.find?_eq_none]
  intro l hl
  simp [h l hl]

theorem findTaskTarget_eq_none {ls : List BList} {overId : String}
    (h : ∀ L ∈ ls, ∀ t ∈ L.tasks, t.id ≠ overId) : findTaskTarget ls overId = none := by
  induction ls with
  | nil => rfl
  | cons a ls ih =>
    have ha : findTaskIdx a.tasks overId = none := findTaskIdx_eq_none.mpr (h a (by simp))
    simp only [findTaskTarget, ha]
    exact ih (fun L hL => h L (List.mem_cons_of_mem a hL))

theorem findTaskTarget_eq_some {ls : List BList} {overId : String} {L : BList} {i : Nat}
    (hL : L ∈ ls) (hfi : findTaskIdx L.tasks overId = some i)
    (hothers : ∀ M ∈ ls, M ≠ L → findTaskIdx M.tasks overId = none) :
    findTaskTarget ls overId = some ⟨L.id, i⟩ := by
  induction ls with
  | nil => cases hL
  | cons a ls ih =>
    by_cases ha : a = L
    · subst ha
      simp only [findTaskTarget, hfi]
    · have hnone : findTaskIdx a.tasks overId = none := hothers a (by simp) ha
      simp only [findTaskTarget, hnone]
      refine ih ?_ (fun M hM hne => hothers M (List.mem_cons_of_mem a hM) hne)
      rcases List.mem_cons.mp hL with h | h
      · exact absurd h.symm ha
      · exact h

/-! ## Claim theorems -/

/-- C8: for every sequence of optimistic moves whose destination lists exist
on a well-formed board, the resulting board's task ids are a permutation of
the original ones and contain no duplicate — every task still belongs to
exactly one list — and within each list the position read for the task at
visible index `i` is exactly `i`, so positions are unique and monotonic with
the visible order. -/
theorem applyMoves_invariants (b : Board) (ms : List MoveCmd) (hwf : BoardWF b)
    (hms : ∀ m ∈ ms, m.toListId ∈ listIds b) :
    (boardTaskIds (applyMoves b ms)).Perm (boardTaskIds b)
      ∧ (boardTaskIds (applyMoves b ms)).Nodup
      ∧ ∀ l ∈ (applyMoves b ms).lists, ∀ i (hi : i < l.tasks.length),
          findTaskIdx l.tasks (l.tasks[i].id) = some i := by
  obtain ⟨hwf2, hperm, _⟩ := applyMoves_wf_perm ms b hwf hms
  refine ⟨hperm, hwf2.2, ?_⟩
  intro l hl i hi
  have hnd : (taskIds l).Nodup := (taskIds_sublist hl).nodup hwf2.2
  exact findTaskIdx_of_nodup hnd i hi

theorem applyMoves_invariants_witness :
    (boardTaskIds (applyMoves demoBoard demoMoves)).Perm (boardTaskIds demoBoard)
      ∧ (boardTaskIds (applyMoves demoBoard demoMoves)).Nodup
      ∧ ∀ l ∈ (applyMoves demoBoard demoMoves).lists, ∀ i (hi : i < l.tasks.length),
          findTaskIdx l.tasks (l.tasks[i].id) = some i :=
  applyMoves_invariants demoBoard demoMoves (by decide) (by decide)

/-- C6: moving a task `t` found in list `A` to the head (index `0`) of a
different list `B` removes `t` from `A`'s sequence keeping the other tasks'
relative order, prepends `t` to `B`'s sequence keeping its tasks' relative
order, and leaves every other list untouched. -/
theorem optimisticMoveTask_cross_to_head (b : Board) (A B : BList) (t : Task)
    (hA : b.lists.find? (fun l => l.id == A.id) = some A)
    (hT : A.tasks.find? (fun x => x.id == t.id) = some t)
    (hAB : A.id ≠ B.id) :
    optimisticMoveTask b t.id A.id B.id 0
      = ⟨b.lists.map (fun l =>
          if l.id = A.id then ⟨l.id, l.tasks.filter (fun x => !(x.id == t.id))⟩
          else if l.id = B.id then ⟨l.id, t :: l.tasks⟩ else l)⟩ := by
  unfold optimisticMoveTask
  rw [hA, Option.some_bind, hT]
  refine congrArg Board.mk (List.map_congr_left ?_)
  intro l _
  by_cases hl : l.id = A.id
  · have c1 : (l.id == A.id) = true := by simp [hl]
    have c2 : (l.id == B.id) = false := by simp [hl, hAB]
    rw [if_pos hl]
    simp only [moveOne, c1, c2, Bool.false_eq_true, if_false, if_true]
  · have c1 : (l.id == A.id) = false := by simpa using hl
    by_cases hlB : l.id = B.id
    · have c2 : (l.id == B.id) = true := by simp [hlB]
      rw [if_neg hl, if_pos hlB]
      simp only [moveOne, c1, c2, Bool.false_eq_true, if_false, if_true, insertAt_zero]
    · have c2 : (l.id == B.id) = false := by simpa using hlB
      rw [if_neg hl, if_neg hlB]
      simp only [moveOne, c1, c2, Bool.false_eq_true, if_false]

theorem optimisticMoveTask_cross_to_head_witness :
    optimisticMoveTask demoBoard "t2" "A" "B" 0
      = ⟨[⟨"A", [⟨"t1"⟩, ⟨"t3"⟩]⟩, ⟨"B", [⟨"t2"⟩]⟩]⟩ := by
  have h := optimisticMoveTask_cross_to_head demoBoard ⟨"A", [⟨"t1"⟩, ⟨"t2"⟩, ⟨"t3"⟩]⟩
    ⟨"B", []⟩ ⟨"t2"⟩ (by decide) (by decide) (by decide)
  exact h.trans (by decide)

/-- C3: `resolveDropTarget` maps a hovered identifier that is the id of a
(unique) list to that list with insertion index equal to its task count; an
identifier that is the id of a task (contained, uniquely, in one list at one
index) to that containing list with the task's current index; and any other
identifier to `none`. -/
theorem resolveDropTarget_spec (b : Board) (overId : String) :
    (∀ L ∈ b.lists, L.id = overId → (∀ M ∈ b.lists, M.id = overId → M = L) →
        resolveDropTarget b overId = some ⟨L.id, L.tasks.length⟩)
    ∧ ((∀ L ∈ b.lists, L.id ≠ overId) →
        ∀ L ∈ b.lists, ∀ i (hi : i < L.tasks.length), L.tasks[i].id = overId →
          (∀ M ∈ b.lists, ∀ t ∈ M.tasks, t.id = overId → M = L) →
          (∀ j (hj : j < L.tasks.length), L.tasks[j].id = overId → j = i) →
          resolveDropTarget b overId = some ⟨L.id, i⟩)
    ∧ ((∀ L ∈ b.lists, L.id ≠ overId) → (∀ L ∈ b.lists, ∀ t ∈ L.tasks, t.id ≠ overId) →
        resolveDropTarget b overId = none) := by
  refine ⟨?_, ?_, ?_⟩
  · intro L hL hid huniq
    have hffind : b.lists.find? (fun l => l.id == overId) = some L := by
      cases hfind : b.lists.find? (fun l => l.id == overId) with
      | none =>
        rw [List.find?_eq_none] at hfind
        exact absurd (by simp [hid]) (hfind L hL)
      | some X =>
        have hXmem := List.mem_of_find?_eq_some hfind
        have hXid : X.id = overId := by simpa using List.find?_some hfind
        rw [huniq X hXmem hXid]
    unfold resolveDropTarget
    rw [hffind]
  · intro hnolist L hL i hi hid hcross hwithin
    have hfind := find?_listId_eq_none hnolist
    have hfi : findTaskIdx L.tasks overId = some i := findTaskIdx_of_uniq hi hid hwithin
    have hothers : ∀ M ∈ b.lists, M ≠ L → findTaskIdx M.tasks overId = none := by
      intro M hM hne
      rw [findTaskIdx_eq_none]
      intro t ht htid
      exact hne (hcross M hM t ht htid)
    unfold resolveDropTarget
    rw [hfind]
    exact findTaskTarget_eq_some hL hfi hothers
  · intro hnolist hnotask
    unfold resolveDropTarget
    rw [find?_listId_eq_none hnolist]
    exact findTaskTarget_eq_none hnotask

theorem resolveDropTarget_spec_witness : resolveDropTarget demoBoard "t2" = some ⟨"A", 1⟩ :=
  (resolveDropTarget_spec demoBoard "t2").2.1 (by decide)
    ⟨"A", [⟨"t1"⟩, ⟨"t2"⟩, ⟨"t3"⟩]⟩ (by decide) 1 (by decide) (by decide) (by decide)
    (by decide)

/-- C1: when the dragged task's final list and final index — read from the
local state `handleDragEnd` consults after any optimistic moves — equal the
list and index captured at drag start, the handler issues no persistence
request (and indeed no effect at all). -/
theorem handleDragEnd_unmoved_no_persist (b : Board) (org : Origin)
    (taskId overId : String) (moveOk : Bool) (server : Board) (fl : BList)
    (hfl : findListContainingTask (dragEndBoardOf b taskId overId) taskId = some fl)
    (hid : org.listId = fl.id) (hpos : org.position = idxOrNeg fl.tasks taskId) :
    (handleDragEnd b (some org) taskId (some overId) moveOk server).2 = [] := by
  unfold handleDragEnd
  cases hcl : findListContainingTask b taskId <;>
    cases htg : resolveDropTarget b overId <;> simp only [hcl, htg]
  unfold dragEndFinish
  have hc : (org.listId == fl.id && org.position == idxOrNeg fl.tasks taskId) = true := by
    simp [hid, hpos]
  simp only [hfl, hc, if_true]

theorem handleDragEnd_unmoved_no_persist_witness :
    (handleDragEnd demoBoard (some ⟨"A", 0⟩) "t1" (some "t1") true demoBoard).2 = [] :=
  handleDragEnd_unmoved_no_persist demoBoard ⟨"A", 0⟩ "t1" "t1" true demoBoard
    ⟨"A", [⟨"t1"⟩, ⟨"t2"⟩, ⟨"t3"⟩]⟩ (by decide) (by decide) (by decide)

/-- C9: when the final position differs from the origin, `handleDragEnd`
issues exactly one persistence request, whose payload is the dragged task's
id with its final list id and final index as read from the local state after
all optimistic moves; on success nothing else happens. -/
theorem handleDragEnd_single_persist (b : Board) (org : Origin)
    (taskId overId : String) (moveOk : Bool) (server : Board) (cl : BList)
    (tgt : DropTarget) (fl : BList)
    (hcl : findListContainingTask b taskId = some cl)
    (htg : resolveDropTarget b overId = some tgt)
    (hfl : findListContainingTask (dragEndBoardOf b taskId overId) taskId = some fl)
    (hmoved : ¬(org.listId = fl.id ∧ org.position = idxOrNeg fl.tasks taskId)) :
    (handleDragEnd b (some org) taskId (some overId) moveOk server).2
      = Effect.persist taskId fl.id (idxOrNeg fl.tasks taskId)
        :: (if moveOk then []
            else [Effect.toastError "Failed to move task", Effect.refetch]) := by
  unfold handleDragEnd
  simp only [hcl, htg]
  unfold dragEndFinish
  have hc : (org.listId == fl.id && org.position == idxOrNeg fl.tasks taskId) = false := by
    cases h1 : org.listId == fl.id with
    | false => simp
    | true =>
      have e1 : org.listId = fl.id := by simpa using h1
      have h2 : org.position ≠ idxOrNeg fl.tasks taskId := fun e => hmoved ⟨e1, e⟩
      simp [h2]
  simp only [hfl, hc, Bool.false_eq_true, if_false]
  cases moveOk <;> rfl

theorem handleDragEnd_single_persist_witness :
    (handleDragEnd demoBoard (some ⟨"A", 2⟩) "t3" (some "t1") true demoBoard).2
      = [Effect.persist "t3" "A" 0] :=
  (handleDragEnd_single_persist demoBoard ⟨"A", 2⟩ "t3" "t1" true demoBoard
    ⟨"A", [⟨"t1"⟩, ⟨"t2"⟩, ⟨"t3"⟩]⟩ ⟨"A", 0⟩ ⟨"A", [⟨"t3"⟩, ⟨"t1"⟩, ⟨"t2"⟩]⟩
    (by decide) (by decide) (by decide) (by decide)).trans (by decide)

/-- C2: whenever the drag-end handler's persistence request fails (it issued a
request and `moveTask` rejected), the handler surfaces exactly one error
toast, performs a full board re-fetch, retries nothing (the single `persist`
effect is the only request), and the recovered client state is exactly the
freshly fetched server board. -/
theorem handleDragEnd_failure_recovery (b : Board) (org : Origin)
    (taskId overId : String) (server : Board)
    (hne : (handleDragEnd b (some org) taskId (some overId) false server).2 ≠ []) :
    ∃ listId position,
      handleDragEnd b (some org) taskId (some overId) false server
        = (server, [Effect.persist taskId listId position,
            Effect.toastError "Failed to move task", Effect.refetch]) := by
  unfold handleDragEnd at hne ⊢
  cases hcl : findListContainingTask b taskId <;>
    cases htg : resolveDropTarget b overId <;> simp only [hcl, htg] at hne ⊢
  case none.none => exact absurd rfl hne
  case none.some => exact absurd rfl hne
  case some.none => exact absurd rfl hne
  unfold dragEndFinish at hne ⊢
  cases hfl : findListContainingTask (dragEndBoardOf b taskId overId) taskId with
  | none =>
    simp only [hfl] at hne
    exact absurd rfl hne
  | some fl =>
    by_cases hc : (org.listId == fl.id && org.position == idxOrNeg fl.tasks taskId) = true
    · simp only [hfl, hc, if_true] at hne
      exact absurd rfl hne
    · refine ⟨fl.id, idxOrNeg fl.tasks taskId, ?_⟩
      simp only [hfl, hc, Bool.false_eq_true, if_false]

theorem handleDragEnd_failure_recovery_witness :
    ∃ listId position,
      handleDragEnd demoBoard (some ⟨"A", 2⟩) "t3" (some "t1") false ⟨[]⟩
        = (⟨[]⟩, [Effect.persist "t3" listId position,
            Effect.toastError "Failed to move task", Effect.refetch]) :=
  handleDragEnd_failure_recovery demoBoard ⟨"A", 2⟩ "t3" "t1" ⟨[]⟩ (by decide)

/-- C5: `handleDragOver` performs no outward effect (no network call), and it
applies the optimistic move exactly when the hover crosses list boundaries:
with no hovered id, an unresolvable dragged task or target, or a target in
the task's current list, the local state is left unchanged; otherwise the
cross-list optimistic move is applied. -/
theorem handleDragOver_spec (b : Board) (activeId : String) (over : Option String) :
    (handleDragOver b activeId over).2 = []
    ∧ (over = none → (handleDragOver b activeId over).1 = b)
    ∧ ∀ overId, over = some overId →
        ((findListContainingTask b activeId = none ∨ resolveDropTarget b overId = none) →
          (handleDragOver b activeId over).1 = b)
        ∧ ∀ al tgt, findListContainingTask b activeId = some al →
            resolveDropTarget b overId = some tgt →
            (al.id = tgt.listId → (handleDragOver b activeId over).1 = b)
            ∧ (al.id ≠ tgt.listId → (handleDragOver b activeId over).1
                = optimisticMoveTask b activeId al.id tgt.listId tgt.index) := by
  refine ⟨?_, ?_, ?_⟩
  · cases over with
    | none => rfl
    | some overId =>
      unfold handleDragOver
      cases hcl : findListContainingTask b activeId <;>
        cases htg : resolveDropTarget b overId <;> simp only [hcl, htg]
      split <;> rfl
  · intro h
    subst h
    rfl
  · intro overId hov
    subst hov
    constructor
    · intro hnone
      rcases hnone with hcl | htg
      · unfold handleDragOver
        cases htg : resolveDropTarget b overId <;> simp only [hcl, htg]
      · unfold handleDragOver
        cases hcl : findListContainingTask b activeId <;> simp only [hcl, htg]
    · intro al tgt hal htg
      constructor
      · intro heq
        unfold handleDragOver
        simp only [hal, htg]
        rw [if_pos (show (al.id == tgt.listId) = true by simp [heq])]
      · intro hne
        unfold handleDragOver
        simp only [hal, htg]
        rw [if_neg (show ¬((al.id == tgt.listId) = true) by simp [hne])]

theorem handleDragOver_spec_witness :
    (handleDragOver demoBoard "t1" (some "B")).2 = []
    ∧ (handleDragOver demoBoard "t1" (some "B")).1
        = optimisticMoveTask demoBoard "t1" "A" "B" 0 :=
  ⟨(handleDragOver_spec demoBoard "t1" (some "B")).1,
    ((((handleDragOver_spec demoBoard "t1" (some "B")).2.2 "B" rfl).2
      ⟨"A", [⟨"t1"⟩, ⟨"t2"⟩, ⟨"t3"⟩]⟩ ⟨"B", 0⟩ (by decide) (by decide)).2 (by decide))⟩

/-- C4 (code behaviour at the failing input): after a cross-list optimistic
drag-over move, a drag end whose hovered id resolves to no target returns
with the optimistic board left in place and an empty effect list — no board
re-fetch is triggered, contradicting the claimed recovery. -/
theorem handleDragEnd_null_target_strands_optimistic_move :
    (handleDragOver strandBoard "t1" (some "B")).1 ≠ strandBoard
    ∧ resolveDropTarget (handleDragOver strandBoard "t1" (some "B")).1 "ghost" = none
    ∧ handleDragEnd (handleDragOver strandBoard "t1" (some "B")).1 (some ⟨"A", 0⟩) "t1"
        (some "ghost") true strandBoard
      = ((handleDragOver strandBoard "t1" (some "B")).1, []) := by
  refine ⟨by decide, by decide, by decide⟩

/-- C10: every user kept by the board-members modal's search filter is neither
the board owner nor an already-added member, and a failed search request
leaves the results list empty. -/
theorem boardMembersSearch_filter (board : BoardDetail) (users : List UserSearchResult) :
    (∀ u ∈ searchResultsAfter board (some users),
        u.id ≠ board.owner_id ∧ ∀ m ∈ board.members, u.id ≠ m.user_id)
    ∧ searchResultsAfter board none = [] := by
  refine ⟨?_, rfl⟩
  intro u hu
  simp only [searchResultsAfter, filterSearchResults, List.mem_filter] at hu
  have hnotin : u.id ∉ board.owner_id :: board.members.map (·.user_id) := by
    simpa using hu.2
  constructor
  · intro e
    exact hnotin (by simp [e])
  · intro m hm e
    refine hnotin (List.mem_cons_of_mem _ ?_)
    rw [e]
    exact List.mem_map_of_mem _ hm

theorem boardMembersSearch_filter_witness :
    (⟨"u2"⟩ : UserSearchResult).id ≠ "o"
    ∧ ∀ m ∈ [(⟨"m1"⟩ : BoardMember)], (⟨"u2"⟩ : UserSearchResult).id ≠ m.user_id :=
  (boardMembersSearch_filter ⟨"o", [⟨"m1"⟩]⟩ [⟨"o"⟩, ⟨"m1"⟩, ⟨"u2"⟩]).1 ⟨"u2"⟩ (by decide)

end Kanban
